import Mathlib

/-!
Verification of the grader core (grader.py and create_groups.py):
rating resolution, formula evaluation and score bounds, rank assignment,
and the group-balancing optimizer.  Python floats are modelled as `PyFloat`
(rationals plus the nan/inf sentinels), strings as Lean `String`s, dicts as
association lists, and the numpy random stream as an explicit oracle.
-/

set_option maxRecDepth 100000

namespace Grader

/-- Python float values: rationals plus the `nan`, `inf`, `-inf` sentinels.
`float_nan` in grader.py is `PyFloat.nan`. -/
inductive PyFloat where
  | nan : PyFloat
  | inf : PyFloat
  | ninf : PyFloat
  | val : ℚ → PyFloat
deriving DecidableEq

/-- Python `<` on floats: any comparison against nan is False. -/
def PyFloat.lt : PyFloat → PyFloat → Bool
  | .nan, _ => false
  | _, .nan => false
  | .ninf, .ninf => false
  | .ninf, _ => true
  | _, .ninf => false
  | .inf, _ => false
  | .val _, .inf => true
  | .val a, .val b => decide (a < b)

/-- Python `<=` on floats: any comparison against nan is False. -/
def PyFloat.le : PyFloat → PyFloat → Bool
  | .nan, _ => false
  | _, .nan => false
  | .ninf, _ => true
  | _, .ninf => false
  | _, .inf => true
  | .inf, _ => false
  | .val a, .val b => decide (a ≤ b)

/-- Python `math.isnan`. -/
def PyFloat.isnan : PyFloat → Bool
  | .nan => true
  | _ => false

/-- Loop body of Python builtin `min`: keep the accumulator unless the next
element compares strictly below it. -/
def pyMinAux (acc : PyFloat) : List PyFloat → PyFloat
  | [] => acc
  | x :: xs => pyMinAux (if x.lt acc then x else acc) xs

/-- Python builtin `min` on a list of floats (callers guard against `[]`). -/
def pyMin : List PyFloat → PyFloat
  | [] => .nan
  | x :: xs => pyMinAux x xs

/-- Loop body of Python builtin `max`. -/
def pyMaxAux (acc : PyFloat) : List PyFloat → PyFloat
  | [] => acc
  | x :: xs => pyMaxAux (if acc.lt x then x else acc) xs

/-- Python builtin `max` on a list of floats (callers guard against `[]`). -/
def pyMax : List PyFloat → PyFloat
  | [] => .nan
  | x :: xs => pyMaxAux x xs

/-! ## String canonicalization (Python `str.partition` / `str.strip`) -/

/-- Whitespace test used by Python `str.strip`. -/
def isWS (c : Char) : Bool := c.isWhitespace

/-- Remove leading whitespace. -/
def trimL (l : List Char) : List Char := l.dropWhile isWS

/-- Remove trailing whitespace. -/
def trimR (l : List Char) : List Char := (l.reverse.dropWhile isWS).reverse

/-- Python `str.strip` on a character list. -/
def pstripL (l : List Char) : List Char := trimR (trimL l)

/-- Python `str.strip`. -/
def pstrip (s : String) : String := ⟨pstripL s.data⟩

/-- Everything before the first occurrence of `c` (`s.partition(c)[0]`). -/
def upToL (c : Char) (l : List Char) : List Char := l.takeWhile (fun x => x ≠ c)

/-- Canonical rating key: `key.partition('(')[0].partition('/')[0].strip()`
from `get_rating` in grader.py. -/
def canonKeyL (l : List Char) : List Char := pstripL (upToL '/' (upToL '(' l))

/-- Canonical rating key on strings. -/
def canonKey (s : String) : String := ⟨canonKeyL s.data⟩

/-- Association-list lookup (model of Python dict lookup; first binding wins). -/
def alookup {α : Type} : List (String × α) → String → Option α
  | [], _ => none
  | (k, v) :: rest, key => if k = key then some v else alookup rest key

/-- `get_rating` from grader.py: strip the explanation in `(...)` or after `/`,
trim whitespace, look the canonical key up; a missing key raises
`MissingRating(name, key)` unless a fallback is supplied.  The error value
carries `(category, canonical key)` exactly as `MissingRating.args`. -/
def get_rating (name : String) (table : List (String × ℚ)) (key : String)
    (fallback : Option ℚ) : Except (String × String) ℚ :=
  let k := canonKey key
  match alookup table k with
  | some v => .ok v
  | none =>
    match fallback with
    | some f => .ok f
    | none => .error (name, k)

/-! ## Lemmas about canonicalization -/

theorem takeWhile_all {p : Char → Bool} {l : List Char} (h : ∀ x ∈ l, p x) :
    l.takeWhile p = l := by
  induction l with
  | nil => rfl
  | cons c t ih =>
    have hc : p c := h c (by simp)
    simp [List.takeWhile_cons, hc, ih fun x hx => h x (by simp [hx])]

theorem takeWhile_append_all {p : Char → Bool} {a : List Char} (b : List Char)
    (h : ∀ x ∈ a, p x) : (a ++ b).takeWhile p = a ++ b.takeWhile p := by
  induction a with
  | nil => rfl
  | cons c t ih =>
    have hc : p c := h c (by simp)
    simp [List.takeWhile_cons, hc, ih fun x hx => h x (by simp [hx])]

theorem upToL_of_not_mem {c : Char} {l : List Char} (h : c ∉ l) : upToL c l = l :=
  takeWhile_all fun x hx => by
    simp only [ne_eq, decide_eq_true_eq]
    rintro rfl; exact h hx

theorem upToL_append_cons {c : Char} {a : List Char} (b : List Char) (h : c ∉ a) :
    upToL c (a ++ c :: b) = a := by
  unfold upToL
  rw [takeWhile_append_all _ fun x hx => by
    simp only [ne_eq, decide_eq_true_eq]; rintro rfl; exact h hx]
  simp [List.takeWhile_cons]

theorem dropWhile_head_false {p : Char → Bool} {l t : List Char} {c : Char}
    (h : l.dropWhile p = c :: t) : p c = false := by
  induction l with
  | nil => simp at h
  | cons a b ih =>
    rw [List.dropWhile_cons] at h
    by_cases ha : p a
    · simp only [ha, if_true] at h; exact ih h
    · simp only [ha, if_false] at h
      cases h; simpa using ha

theorem trimR_prefix (l : List Char) : ∃ t, trimR l ++ t = l := by
  obtain ⟨t, ht⟩ := List.dropWhile_suffix (l := l.reverse) (p := isWS)
  refine ⟨t.reverse, ?_⟩
  have := congrArg List.reverse ht
  simpa [trimR] using this

theorem trimL_idem (l : List Char) : trimL (trimL l) = trimL l :=
  List.dropWhile_idempotent ..

theorem trimR_idem (l : List Char) : trimR (trimR l) = trimR l := by
  unfold trimR
  rw [List.reverse_reverse, List.dropWhile_idempotent]

theorem trimL_trimR_of_fix {l : List Char} (h : trimL l = l) :
    trimL (trimR l) = trimR l := by
  rcases hr : trimR l with _ | ⟨c, t⟩
  · rfl
  · obtain ⟨s, hs⟩ := trimR_prefix l
    rw [hr] at hs
    have hc : isWS c = false := by
      rcases hl : l with _ | ⟨a, b⟩
      · rw [hl] at hs; simp at hs
      · have : a = c := by
          rw [hl] at hs
          exact (List.cons.injEq _ _ _ _ ▸ hs.symm).1
        subst this
        by_contra hws
        have hws' : isWS a = true := by simpa using hws
        rw [hl] at h
        unfold trimL at h
        rw [List.dropWhile_cons, hws'] at h
        simp only [if_true] at h
        have hlen : (List.dropWhile isWS b).length ≤ b.length :=
          (List.dropWhile_suffix (l := b) (p := isWS)).length_le
        have : (List.dropWhile isWS b).length = b.length + 1 := by rw [h]; simp
        omega
    unfold trimL
    rw [List.dropWhile_cons, hc]
    simp

theorem pstripL_idem (l : List Char) : pstripL (pstripL l) = pstripL l := by
  unfold pstripL
  rw [trimL_trimR_of_fix (trimL_idem l), trimR_idem]

theorem mem_trimL {x : Char} {l : List Char} (h : x ∈ trimL l) : x ∈ l := by
  obtain ⟨t, ht⟩ := List.dropWhile_suffix (l := l) (p := isWS)
  rw [← ht]
  exact List.mem_append.mpr (Or.inr h)

theorem mem_trimR {x : Char} {l : List Char} (h : x ∈ trimR l) : x ∈ l := by
  obtain ⟨t, ht⟩ := trimR_prefix l
  rw [← ht]
  exact List.mem_append.mpr (Or.inl h)

theorem mem_pstripL {x : Char} {l : List Char} (h : x ∈ pstripL l) : x ∈ l :=
  mem_trimL (mem_trimR h)

theorem canonKeyL_of_clean {l : List Char} (hp : '(' ∉ l) (hs : '/' ∉ l) :
    canonKeyL l = pstripL l := by
  unfold canonKeyL
  rw [upToL_of_not_mem hp, upToL_of_not_mem hs]

theorem canonKeyL_pstripL {l : List Char} (hp : '(' ∉ l) (hs : '/' ∉ l) :
    canonKeyL (pstripL l) = pstripL l := by
  rw [canonKeyL_of_clean (fun h => hp (mem_pstripL h)) (fun h => hs (mem_pstripL h)),
    pstripL_idem]

theorem canonKeyL_paren {pre : List Char} (e : List Char)
    (hp : '(' ∉ pre) (hs : '/' ∉ pre) :
    canonKeyL (pre ++ '(' :: e) = pstripL pre := by
  unfold canonKeyL
  rw [upToL_append_cons e hp, upToL_of_not_mem hs]

theorem canonKeyL_slash {pre : List Char} (v : List Char)
    (hp : '(' ∉ pre) (hs : '/' ∉ pre) :
    canonKeyL (pre ++ '/' :: v) = pstripL pre := by
  unfold canonKeyL
  rw [show upToL '(' (pre ++ '/' :: v) = pre ++ '/' :: upToL '(' v from ?side,
    upToL_append_cons _ hs]
  case side =>
    unfold upToL
    rw [takeWhile_append_all _ fun x hx => by
      simp only [ne_eq, decide_eq_true_eq]; rintro rfl; exact hp hx]
    simp [List.takeWhile_cons]

theorem get_rating_key_congr (name : String) (table : List (String × ℚ))
    {k1 k2 : String} (fb : Option ℚ) (h : canonKey k1 = canonKey k2) :
    get_rating name table k1 fb = get_rating name table k2 fb := by
  unfold get_rating
  rw [h]

/-- Claim C8: resolving a rating label with a parenthesized explanation suffix
or a slash-variant suffix yields the same result (same value or the same
MissingRating on the same canonical key) as resolving the bare prefix with
surrounding whitespace trimmed. -/
theorem C8_suffix_resolution (name : String) (table : List (String × ℚ))
    (pre e v : List Char) (fb : Option ℚ)
    (hp : '(' ∉ pre) (hs : '/' ∉ pre) :
    get_rating name table ⟨pre ++ '(' :: e⟩ fb = get_rating name table (pstrip ⟨pre⟩) fb
    ∧ get_rating name table ⟨pre ++ '/' :: v⟩ fb = get_rating name table (pstrip ⟨pre⟩) fb := by
  constructor
  · refine get_rating_key_congr name table fb ?_
    show (⟨canonKeyL (pre ++ '(' :: e)⟩ : String) = ⟨canonKeyL (pstripL pre)⟩
    rw [canonKeyL_paren e hp hs, canonKeyL_pstripL hp hs]
  · refine get_rating_key_congr name table fb ?_
    show (⟨canonKeyL (pre ++ '/' :: v)⟩ : String) = ⟨canonKeyL (pstripL pre)⟩
    rw [canonKeyL_slash v hp hs, canonKeyL_pstripL hp hs]

/-- Witness for C8 at a concrete label: `"python (expert)"` resolves like the
stripped bare label `"python"`. -/
theorem C8_witness :
    get_rating "skill" [("python", 2)] ⟨"python ".data ++ '(' :: "expert)".data⟩ none
      = get_rating "skill" [("python", 2)] (pstrip ⟨"python ".data⟩) none :=
  (C8_suffix_resolution "skill" [("python", 2)] "python ".data "expert)".data []
    none (by decide) (by decide)).1

/-! ## Cohort ranking (`_assign_rankings` in grader.py) -/

/-- The fields of an applicant record used by rank assignment: affiliation
institute, affiliation group, and the score already computed by `rank_person`. -/
structure Person where
  institute : String
  group : String
  score : ℚ
deriving DecidableEq

/-- `_equiv_master` from grader.py: scan the equivalence table; return the
first key whose name or listed spellings match case-insensitively, else the
trimmed variant itself. -/
def equiv_master (equivs : List (String × List String)) (variant : String) : String :=
  match equivs with
  | [] => pstrip variant
  | (key, values) :: rest =>
    if variant.toLower = key.toLower ∨ variant.toLower ∈ values.map String.toLower
    then key
    else equiv_master rest variant

/-- The lab key `institute + " / " + group` built from canonicalized parts. -/
def labKey (equivs : List (String × List String)) (p : Person) : String :=
  equiv_master equivs p.institute ++ " / " ++ equiv_master equivs p.group

/-- Insert into a descending-by-score list, after any earlier element with an
equal or larger score (ties keep input order, matching Python's stable sort). -/
def insertDesc (p : Person) : List Person → List Person
  | [] => [p]
  | q :: qs => if p.score ≥ q.score then p :: q :: qs else q :: insertDesc p qs

/-- `sorted(..., key=lambda p: p.score, reverse=True)`: stable descending sort. -/
def sortDesc : List Person → List Person
  | [] => []
  | p :: ps => insertDesc p (sortDesc ps)

/-- The rank-assignment loop of `_assign_rankings`: walk the sorted list; a
lab key seen before reuses its stored rank, a new lab key takes the next
sequential rank. -/
def assignLoop (equivs : List (String × List String))
    (labs : List (String × ℕ)) (rank : ℕ) : List Person → List (Person × ℕ)
  | [] => []
  | p :: rest =>
    let lab := labKey equivs p
    match alookup labs lab with
    | some r => (p, r) :: assignLoop equivs labs rank rest
    | none => (p, rank) :: assignLoop equivs ((lab, rank) :: labs) (rank + 1) rest

/-- `_assign_rankings` from grader.py (the part after scores are computed):
sort by score descending, then assign first-seen-wins ranks per lab key. -/
def _assign_rankings (equivs : List (String × List String))
    (persons : List Person) : List (Person × ℕ) :=
  assignLoop equivs [] 0 (sortDesc persons)

/-- Key-level version of the rank-assignment loop. -/
def assignKeys (labs : List (String × ℕ)) (next : ℕ) : List String → List ℕ
  | [] => []
  | k :: ks =>
    match alookup labs k with
    | some r => r :: assignKeys labs next ks
    | none => next :: assignKeys ((k, next) :: labs) (next + 1) ks

/-- Distinct keys in order of first appearance, given keys already seen. -/
def firstsAux (seen : List String) : List String → List String
  | [] => []
  | k :: ks => if k ∈ seen then firstsAux seen ks else k :: firstsAux (seen ++ [k]) ks

/-- Distinct keys in order of first appearance. -/
def firsts (ks : List String) : List String := firstsAux [] ks

/-- Index of the first occurrence of a key (length of the list when absent). -/
def idxOf : List String → String → ℕ
  | [], _ => 0
  | k :: ks, x => if k = x then 0 else idxOf ks x + 1

/-- A rank table `labs` represents the first-appearance list `A`. -/
def labsRep (A : List String) (labs : List (String × ℕ)) : Prop :=
  ∀ k, alookup labs k = if k ∈ A then some (idxOf A k) else none

theorem idxOf_append_left {x : String} {a : List String} (b : List String)
    (h : x ∈ a) : idxOf (a ++ b) x = idxOf a x := by
  induction a with
  | nil => simp at h
  | cons k ks ih =>
    by_cases hk : k = x
    · simp [idxOf, hk]
    · rcases List.mem_cons.mp h with h1 | h2
      · exact absurd h1.symm hk
      · simp [idxOf, hk, ih h2]

theorem idxOf_append_right {x : String} {a : List String} (b : List String)
    (h : x ∉ a) : idxOf (a ++ b) x = a.length + idxOf b x := by
  induction a with
  | nil => simp
  | cons k ks ih =>
    have hk : k ≠ x := fun hkx => h (by simp [hkx])
    have hx : x ∉ ks := fun hxk => h (by simp [hxk])
    simp [idxOf, hk, ih hx]
    omega

theorem idxOf_inj {l : List String} {x y : String} (hx : x ∈ l) (hy : y ∈ l)
    (h : idxOf l x = idxOf l y) : x = y := by
  induction l with
  | nil => simp at hx
  | cons k ks ih =>
    by_cases hkx : k = x <;> by_cases hky : k = y
    · rw [← hkx, ← hky]
    · rw [show idxOf (k :: ks) x = 0 by simp [idxOf, hkx]] at h
      simp [idxOf, hky] at h
    · rw [show idxOf (k :: ks) y = 0 by simp [idxOf, hky]] at h
      simp [idxOf, hkx] at h
    · simp only [idxOf, if_neg hkx, if_neg hky, Nat.add_right_cancel_iff] at h
      rcases List.mem_cons.mp hx with h1 | hx2
      · exact absurd h1.symm hkx
      rcases List.mem_cons.mp hy with h2 | hy2
      · exact absurd h2.symm hky
      exact ih hx2 hy2 h

theorem mem_firstsAux {x : String} {ks : List String} :
    ∀ {seen : List String}, x ∈ ks → x ∉ seen → x ∈ firstsAux seen ks := by
  induction ks with
  | nil => intro seen h _; simp at h
  | cons k ks ih =>
    intro seen hmem hnot
    by_cases hk : k ∈ seen
    · rcases List.mem_cons.mp hmem with rfl | h2
      · exact absurd hk hnot
      · simpa [firstsAux, hk] using ih h2 hnot
    · rcases List.mem_cons.mp hmem with rfl | h2
      · simp [firstsAux, hk]
      · by_cases hxk : x = k
        · simp [firstsAux, hk, hxk]
        · have : x ∉ seen ++ [k] := by
            simp only [List.mem_append, List.mem_singleton]
            rintro (h | h)
            · exact hnot h
            · exact hxk h
          simpa [firstsAux, hk] using Or.inr (ih h2 this)

theorem assignKeys_eq_idx :
    ∀ (ks A : List String) (labs : List (String × ℕ)), labsRep A labs →
    assignKeys labs A.length ks = ks.map fun k => idxOf (A ++ firstsAux A ks) k := by
  intro ks
  induction ks with
  | nil => intro A labs _; rfl
  | cons k ks ih =>
    intro A labs hrep
    by_cases hk : k ∈ A
    · have hlook : alookup labs k = some (idxOf A k) := by rw [hrep k, if_pos hk]
      simp only [assignKeys, hlook, firstsAux, if_pos hk, List.map_cons]
      rw [idxOf_append_left _ hk, ih A labs hrep]
    · have hlook : alookup labs k = none := by rw [hrep k, if_neg hk]
      have hrep' : labsRep (A ++ [k]) ((k, A.length) :: labs) := by
        intro k'
        by_cases hk' : k' = k
        · subst hk'
          simp only [alookup, if_pos rfl, List.mem_append, List.mem_singleton,
            or_true, if_true]
          rw [idxOf_append_right _ hk]
          simp [idxOf]
        · have : (k = k') = False := by
            simp only [eq_iff_iff, iff_false]
            exact fun hh => hk' hh.symm
          simp only [alookup, this, if_false]
          rw [hrep k']
          by_cases hmem : k' ∈ A
          · rw [if_pos hmem, if_pos (by simp [hmem]),
              idxOf_append_left _ hmem]
          · rw [if_neg hmem, if_neg (by simp [hmem, hk'])]
      have hlen : (A ++ [k]).length = A.length + 1 := by simp
      simp only [assignKeys, hlook, firstsAux, if_neg hk, List.map_cons,
        List.cons.injEq]
      refine ⟨?_, ?_⟩
      · rw [idxOf_append_right _ hk]
        simp [idxOf]
      · rw [show A ++ k :: firstsAux (A ++ [k]) ks
            = (A ++ [k]) ++ firstsAux (A ++ [k]) ks by simp]
        rw [← hlen, ih (A ++ [k]) ((k, A.length) :: labs) hrep']

theorem assignKeys_main (ks : List String) :
    assignKeys [] 0 ks = ks.map fun k => idxOf (firsts ks) k := by
  have h := assignKeys_eq_idx ks [] [] (fun k => by simp [alookup])
  simpa [firsts] using h

theorem assignLoop_eq_zip (equivs : List (String × List String)) :
    ∀ (ps : List Person) (labs : List (String × ℕ)) (next : ℕ),
    assignLoop equivs labs next ps
      = ps.zip (assignKeys labs next (ps.map (labKey equivs))) := by
  intro ps
  induction ps with
  | nil => intro labs next; rfl
  | cons p rest ih =>
    intro labs next
    simp only [assignLoop, List.map_cons, assignKeys]
    cases h : alookup labs (labKey equivs p) with
    | some r => simp [h, List.zip, ih]
    | none => simp [h, List.zip, ih]

theorem zip_map_self {α β : Type} (l : List α) (f : α → β) :
    l.zip (l.map f) = l.map fun x => (x, f x) := by
  induction l with
  | nil => rfl
  | cons a t ih => rw [List.map_cons, List.zip_cons_cons, ih, List.map_cons]

/-- The rank of every applicant is the first-appearance index of its lab key. -/
theorem assign_rankings_eq_map (equivs : List (String × List String))
    (persons : List Person) :
    _assign_rankings equivs persons
      = (sortDesc persons).map fun p =>
          (p, idxOf (firsts ((sortDesc persons).map (labKey equivs))) (labKey equivs p)) := by
  unfold _assign_rankings
  rw [assignLoop_eq_zip, assignKeys_main, List.map_map, zip_map_self]
  simp [Function.comp]

/-- A list of naturals is non-decreasing. -/
def nonDecreasing : List ℕ → Bool
  | [] => true
  | [_] => true
  | a :: b :: t => decide (a ≤ b) && nonDecreasing (b :: t)

theorem mem_firsts {x : String} {ks : List String} (h : x ∈ ks) : x ∈ firsts ks :=
  mem_firstsAux h (by simp)

/-- Claim C3 counterexample: applicants from labs X, Y, X with descending
scores 0.9, 0.8, 0.7 receive ranks 0, 1, 0 — the third applicant reuses lab
X's earlier rank, so the rank sequence down the sorted list decreases. -/
theorem C3_counterexample :
    (_assign_rankings []
        [⟨"X", "1", mkRat 9 10⟩, ⟨"Y", "1", mkRat 8 10⟩, ⟨"X", "1", mkRat 7 10⟩]).map Prod.snd
      = [0, 1, 0]
    ∧ nonDecreasing ((_assign_rankings []
        [⟨"X", "1", mkRat 9 10⟩, ⟨"Y", "1", mkRat 8 10⟩, ⟨"X", "1", mkRat 7 10⟩]).map Prod.snd)
      = false := by
  decide

/-- Claim C3 (amended): after rank assignment, each applicant's rank equals
the first-appearance index of its lab key among the distinct lab keys of the
descending-score order; a reappearing lab key repeats its earlier (smaller)
rank, so the rank sequence need not be non-decreasing. -/
theorem C3_rank_is_first_seen_index (equivs : List (String × List String))
    (persons : List Person) :
    _assign_rankings equivs persons
      = (sortDesc persons).map fun p =>
          (p, idxOf (firsts ((sortDesc persons).map (labKey equivs)))
            (labKey equivs p)) :=
  assign_rankings_eq_map equivs persons

/-- Claim C4: after rank assignment two applicants receive the same rank
number iff their canonicalized lab keys are equal; and in the concrete
scenario A (0.9, lab X/1), B (0.8, lab X/1), C (0.7, lab Y/1) the assigned
ranks are A:0, B:0, C:1. -/
theorem C4_same_rank_iff_same_lab :
    (∀ (equivs : List (String × List String)) (persons : List Person)
        (p q : Person) (r s : ℕ),
        (p, r) ∈ _assign_rankings equivs persons →
        (q, s) ∈ _assign_rankings equivs persons →
        (r = s ↔ labKey equivs p = labKey equivs q))
    ∧ (_assign_rankings []
          [⟨"X", "1", mkRat 9 10⟩, ⟨"X", "1", mkRat 85 100⟩, ⟨"Y", "1", mkRat 7 10⟩]).map Prod.snd
        = [0, 0, 1] := by
  constructor
  · intro equivs persons p q r s hp hq
    rw [assign_rankings_eq_map] at hp hq
    obtain ⟨p', hp', hpe⟩ := List.mem_map.mp hp
    obtain ⟨q', hq', hqe⟩ := List.mem_map.mp hq
    rw [Prod.mk.injEq] at hpe hqe
    obtain ⟨hp1, hp2⟩ := hpe
    obtain ⟨hq1, hq2⟩ := hqe
    rw [← hp1, ← hp2, ← hq1, ← hq2]
    have hpm : labKey equivs p' ∈ firsts ((sortDesc persons).map (labKey equivs)) :=
      mem_firsts (List.mem_map.mpr ⟨p', hp', rfl⟩)
    have hqm : labKey equivs q' ∈ firsts ((sortDesc persons).map (labKey equivs)) :=
      mem_firsts (List.mem_map.mpr ⟨q', hq', rfl⟩)
    constructor
    · intro h
      exact idxOf_inj hpm hqm h
    · intro h
      rw [h]
  · decide

/-- Witness for C4: the same-rank iff same-lab equivalence instantiated for
the first two applicants of the concrete scenario. -/
theorem C4_witness :
    (0 : ℕ) = 0 ↔ labKey [] ⟨"X", "1", mkRat 9 10⟩ = labKey [] ⟨"X", "1", mkRat 85 100⟩ :=
  C4_same_rank_iff_same_lab.1 []
    [⟨"X", "1", mkRat 9 10⟩, ⟨"X", "1", mkRat 85 100⟩, ⟨"Y", "1", mkRat 7 10⟩]
    ⟨"X", "1", mkRat 9 10⟩ ⟨"X", "1", mkRat 85 100⟩ 0 0 (by decide) (by decide)

/-! ## Formula evaluation and score bounds (`rank_person` / `find_min_max`) -/

/-- The fixed variable contract a formula is evaluated against (the dict built
by `rank_person`, minus `email` which `find_min_max` never supplies). -/
structure Vars where
  born : ℤ
  gender : String
  female : ℚ
  nation : String
  country : String
  motivation : PyFloat
  cv : PyFloat
  programming : ℚ
  open_source : ℚ
  applied : ℚ
  python : ℚ
deriving DecidableEq

/-- `SCORE_RANGE = (-1, 0, 1)` from grader.py. -/
def SCORE_RANGE : List ℚ := [-1, 0, 1]

/-- `HOST_COUNTRY = 'Germany'` from grader.py. -/
def HOST_COUNTRY : String := "Germany"

/-- The outer-product search domain of `find_min_max` (`itertools.product`
over the eleven `_yield_values` axes, in source order; the rating axes range
over each table's stored values). -/
def searchDomain (programming_rating open_source_rating python_rating :
    List (String × ℚ)) : List Vars :=
  ([1900, 2012] : List ℤ).flatMap fun born =>
  (["M", "F"] : List String).flatMap fun gender =>
  ([0, 1] : List ℚ).flatMap fun female =>
  (["Nicaragua", HOST_COUNTRY] : List String).flatMap fun nation =>
  (["Nicaragua", HOST_COUNTRY] : List String).flatMap fun country =>
  SCORE_RANGE.flatMap fun motivation =>
  SCORE_RANGE.flatMap fun cv =>
  (programming_rating.map Prod.snd).flatMap fun programming =>
  (open_source_rating.map Prod.snd).flatMap fun open_source =>
  ([0, 1] : List ℚ).flatMap fun applied =>
  (python_rating.map Prod.snd).map fun python =>
  ⟨born, gender, female, nation, country, .val motivation, .val cv,
    programming, open_source, applied, python⟩

/-- `find_min_max` from grader.py: evaluate the formula over the whole search
domain; `(nan, nan)` when the product is empty, else Python `min`/`max` of
the value list. -/
def find_min_max (formula : Vars → PyFloat)
    (programming_rating open_source_rating python_rating : List (String × ℚ)) :
    PyFloat × PyFloat :=
  match (searchDomain programming_rating open_source_rating python_rating).map formula with
  | [] => (.nan, .nan)
  | v :: vs => (pyMinAux v vs, pyMaxAux v vs)

/-- `list_of_float.mean` from grader.py: mean of the entries that are not
None, or nan when none are. -/
def list_of_float_mean (l : List (Option ℚ)) : PyFloat :=
  match l.filterMap id with
  | [] => .nan
  | v :: vs => .val ((v :: vs).sum / (v :: vs).length)

/-- The applicant fields `rank_person` reads (raw rating labels included). -/
structure Applicant where
  born : ℤ
  gender : String
  nation : String
  country : String
  programming : String
  open_source : String
  python : String
  applied : String
deriving DecidableEq

/-- `person.applied[0] not in 'nN'` coerced to 0/1 (the empty string would
raise in Python and never occurs in CSV data). -/
def appliedFlag (s : String) : ℚ :=
  match s.data with
  | [] => 0
  | c :: _ => if c = 'n' ∨ c = 'N' then 0 else 1

/-- The variable snapshot `rank_person` builds for a person: the three skill
ratings resolved without fallback (a missing rating raises), `female` derived
from the gender string, `applied` from the raw answer, and the two reviewer
means. -/
def personVars (p : Applicant)
    (programming_rating open_source_rating python_rating : List (String × ℚ))
    (motivation_scores cv_scores : List (Option ℚ)) :
    Except (String × String) Vars := do
  let prog ← get_rating "programming" programming_rating p.programming none
  let osrc ← get_rating "open_source" open_source_rating p.open_source none
  let py ← get_rating "python" python_rating p.python none
  return ⟨p.born, p.gender, if p.gender = "Female" then 1 else 0,
    p.nation, p.country,
    list_of_float_mean motivation_scores, list_of_float_mean cv_scores,
    prog, osrc, appliedFlag p.applied, py⟩

/-- `rank_person` from grader.py: build the snapshot and apply the formula. -/
def rank_person (p : Applicant) (formula : Vars → PyFloat)
    (programming_rating open_source_rating python_rating : List (String × ℚ))
    (motivation_scores cv_scores : List (Option ℚ)) :
    Except (String × String) PyFloat :=
  match personVars p programming_rating open_source_rating python_rating
      motivation_scores cv_scores with
  | .error e => .error e
  | .ok vars => .ok (formula vars)

/-- The assertion in `rank_person`:
`assert math.isnan(score) or minsc <= score <= maxsc`. -/
def rankAssert (score minsc maxsc : PyFloat) : Bool :=
  score.isnan || (minsc.le score && score.le maxsc)

/-- Every element of the list is a genuine rational (no nan/inf). -/
def allVal (l : List PyFloat) : Prop := ∀ y ∈ l, ∃ q, y = PyFloat.val q

theorem val_le_trans {a b c : ℚ} (h1 : (PyFloat.val a).le (PyFloat.val b))
    (h2 : (PyFloat.val b).le (PyFloat.val c)) :
    (PyFloat.val a).le (PyFloat.val c) := by
  simp only [PyFloat.le, decide_eq_true_eq] at h1 h2 ⊢
  exact le_trans h1 h2

theorem pyMinAux_mem : ∀ (l : List PyFloat) (acc : PyFloat),
    pyMinAux acc l ∈ acc :: l := by
  intro l
  induction l with
  | nil => intro acc; simp [pyMinAux]
  | cons b t ih =>
    intro acc
    by_cases hb : b.lt acc
    · have := ih b
      simp only [pyMinAux, hb, if_true]
      rcases List.mem_cons.mp this with h | h
      · simp [h]
      · simp [List.mem_cons.mpr (Or.inr h)]
    · have := ih acc
      simp only [pyMinAux, hb, if_false]
      rcases List.mem_cons.mp this with h | h
      · simp [h]
      · simp [List.mem_cons.mpr (Or.inr h)]

theorem pyMaxAux_mem : ∀ (l : List PyFloat) (acc : PyFloat),
    pyMaxAux acc l ∈ acc :: l := by
  intro l
  induction l with
  | nil => intro acc; simp [pyMaxAux]
  | cons b t ih =>
    intro acc
    by_cases hb : acc.lt b
    · have := ih b
      simp only [pyMaxAux, hb, if_true]
      rcases List.mem_cons.mp this with h | h
      · simp [h]
      · simp [List.mem_cons.mpr (Or.inr h)]
    · have := ih acc
      simp only [pyMaxAux, hb, if_false]
      rcases List.mem_cons.mp this with h | h
      · simp [h]
      · simp [List.mem_cons.mpr (Or.inr h)]

theorem pyMinAux_le : ∀ (l : List PyFloat) (acc : PyFloat),
    allVal (acc :: l) → ∀ x ∈ acc :: l, (pyMinAux acc l).le x = true := by
  intro l
  induction l with
  | nil =>
    intro acc hall x hx
    obtain ⟨q, rfl⟩ := hall acc (by simp)
    rcases List.mem_cons.mp hx with rfl | h
    · simp [pyMinAux, PyFloat.le]
    · simp at h
  | cons b t ih =>
    intro acc hall x hx
    obtain ⟨qa, ha⟩ := hall acc (by simp)
    obtain ⟨qb, hb⟩ := hall b (by simp)
    subst ha hb
    set acc' := if (PyFloat.val qb).lt (PyFloat.val qa) then PyFloat.val qb
      else PyFloat.val qa with hacc'
    have hall' : allVal (acc' :: t) := by
      intro y hy
      rcases List.mem_cons.mp hy with rfl | hyt
      · rw [hacc']
        by_cases hlt : (PyFloat.val qb).lt (PyFloat.val qa)
        · exact ⟨qb, by simp [hlt]⟩
        · exact ⟨qa, by simp [hlt]⟩
      · exact hall y (by simp [hyt])
    have hmin : pyMinAux (PyFloat.val qa) (PyFloat.val qb :: t) = pyMinAux acc' t := by
      simp [pyMinAux, hacc']
    rw [hmin]
    have hle_a : acc'.le (PyFloat.val qa) = true := by
      rw [hacc']
      by_cases hlt : (PyFloat.val qb).lt (PyFloat.val qa)
      · simp only [if_pos hlt]
        simp only [PyFloat.lt, decide_eq_true_eq] at hlt
        simp [PyFloat.le, le_of_lt hlt]
      · simp [if_neg hlt, PyFloat.le]
    have hle_b : acc'.le (PyFloat.val qb) = true := by
      rw [hacc']
      by_cases hlt : (PyFloat.val qb).lt (PyFloat.val qa)
      · simp [if_pos hlt, PyFloat.le]
      · simp only [if_neg hlt]
        simp only [PyFloat.lt, decide_eq_true_eq] at hlt
        simp [PyFloat.le, le_of_not_lt hlt]
    have hmem := pyMinAux_mem t acc'
    obtain ⟨qm, hqm⟩ := hall' _ hmem
    rcases List.mem_cons.mp hx with rfl | hx2
    · have h1 : (pyMinAux acc' t).le acc' = true := ih acc' hall' acc' (by simp)
      rw [hqm] at h1 ⊢
      obtain ⟨qa', ha'⟩ : ∃ q, acc' = PyFloat.val q := hall' acc' (by simp)
      rw [ha'] at h1 hle_a
      exact val_le_trans h1 hle_a
    rcases List.mem_cons.mp hx2 with rfl | hx3
    · have h1 : (pyMinAux acc' t).le acc' = true := ih acc' hall' acc' (by simp)
      rw [hqm] at h1 ⊢
      obtain ⟨qa', ha'⟩ : ∃ q, acc' = PyFloat.val q := hall' acc' (by simp)
      rw [ha'] at h1 hle_b
      exact val_le_trans h1 hle_b
    · exact ih acc' hall' x (by simp [hx3])

theorem pyMaxAux_ge : ∀ (l : List PyFloat) (acc : PyFloat),
    allVal (acc :: l) → ∀ x ∈ acc :: l, x.le (pyMaxAux acc l) = true := by
  intro l
  induction l with
  | nil =>
    intro acc hall x hx
    obtain ⟨q, rfl⟩ := hall acc (by simp)
    rcases List.mem_cons.mp hx with rfl | h
    · simp [pyMaxAux, PyFloat.le]
    · simp at h
  | cons b t ih =>
    intro acc hall x hx
    obtain ⟨qa, ha⟩ := hall acc (by simp)
    obtain ⟨qb, hb⟩ := hall b (by simp)
    subst ha hb
    set acc' := if (PyFloat.val qa).lt (PyFloat.val qb) then PyFloat.val qb
      else PyFloat.val qa with hacc'
    have hall' : allVal (acc' :: t) := by
      intro y hy
      rcases List.mem_cons.mp hy with rfl | hyt
      · rw [hacc']
        by_cases hlt : (PyFloat.val qa).lt (PyFloat.val qb)
        · exact ⟨qb, by simp [hlt]⟩
        · exact ⟨qa, by simp [hlt]⟩
      · exact hall y (by simp [hyt])
    have hmax : pyMaxAux (PyFloat.val qa) (PyFloat.val qb :: t) = pyMaxAux acc' t := by
      simp [pyMaxAux, hacc']
    rw [hmax]
    have hge_a : (PyFloat.val qa).le acc' = true := by
      rw [hacc']
      by_cases hlt : (PyFloat.val qa).lt (PyFloat.val qb)
      · simp only [if_pos hlt]
        simp only [PyFloat.lt, decide_eq_true_eq] at hlt
        simp [PyFloat.le, le_of_lt hlt]
      · simp [if_neg hlt, PyFloat.le]
    have hge_b : (PyFloat.val qb).le acc' = true := by
      rw [hacc']
      by_cases hlt : (PyFloat.val qa).lt (PyFloat.val qb)
      · simp [if_pos hlt, PyFloat.le]
      · simp only [if_neg hlt]
        simp only [PyFloat.lt, decide_eq_true_eq] at hlt
        simp [PyFloat.le, le_of_not_lt hlt]
    have hmem := pyMaxAux_mem t acc'
    obtain ⟨qm, hqm⟩ := hall' _ hmem
    rcases List.mem_cons.mp hx with rfl | hx2
    · have h1 : acc'.le (pyMaxAux acc' t) = true := by
        have hmem2 := pyMaxAux_mem t acc'
        exact ih acc' hall' acc' (by simp)
      rw [hqm] at h1 ⊢
      obtain ⟨qa', ha'⟩ : ∃ q, acc' = PyFloat.val q := hall' acc' (by simp)
      rw [ha'] at h1 hge_a
      exact val_le_trans hge_a h1
    rcases List.mem_cons.mp hx2 with rfl | hx3
    · have h1 : acc'.le (pyMaxAux acc' t) = true := ih acc' hall' acc' (by simp)
      rw [hqm] at h1 ⊢
      obtain ⟨qa', ha'⟩ : ∃ q, acc' = PyFloat.val q := hall' acc' (by simp)
      rw [ha'] at h1 hge_b
      exact val_le_trans hge_b h1
    · exact ih acc' hall' x (by simp [hx3])

theorem searchDomain_born {pr osr pyr : List (String × ℚ)} {v : Vars}
    (h : v ∈ searchDomain pr osr pyr) : v.born = 1900 ∨ v.born = 2012 := by
  simp only [searchDomain, List.mem_flatMap, List.mem_map, List.mem_cons,
    List.not_mem_nil, or_false] at h
  obtain ⟨born, hb, gender, _, female, _, nation, _, country, _, motiv, _,
    cv, _, prog, _, osrc, _, app, _, py, _, rfl⟩ := h
  simpa using hb

theorem pyMinAux_all_eq {c : PyFloat} :
    ∀ (l : List PyFloat) (acc : PyFloat), (∀ x ∈ acc :: l, x = c) →
    pyMinAux acc l = c := by
  intro l
  induction l with
  | nil => intro acc h; exact h acc (by simp)
  | cons b t ih =>
    intro acc h
    have hacc : acc = c := h acc (by simp)
    have hb : b = c := h b (by simp)
    rw [hacc, hb]
    simp only [pyMinAux, ite_self]
    exact ih c fun x hx => by
      rcases List.mem_cons.mp hx with rfl | hx2
      · rfl
      · exact h x (by simp [hx2])

theorem pyMaxAux_all_eq {c : PyFloat} :
    ∀ (l : List PyFloat) (acc : PyFloat), (∀ x ∈ acc :: l, x = c) →
    pyMaxAux acc l = c := by
  intro l
  induction l with
  | nil => intro acc h; exact h acc (by simp)
  | cons b t ih =>
    intro acc h
    have hacc : acc = c := h acc (by simp)
    have hb : b = c := h b (by simp)
    rw [hacc, hb]
    simp only [pyMaxAux, ite_self]
    exact ih c fun x hx => by
      rcases List.mem_cons.mp hx with rfl | hx2
      · rfl
      · exact h x (by simp [hx2])

/-- Claim C1 counterexample: for the formula `(born - 1956)**2` the bounds
search only samples born ∈ {1900, 2012}, both giving 3136, while an applicant
born 1956 scores 0 — a non-NaN score strictly outside `[min, max]`, so the
assertion in `rank_person` fails. -/
theorem C1_counterexample :
    rank_person ⟨1956, "M", "Nicaragua", "Nicaragua", "x", "x", "x", "no"⟩
        (fun v => PyFloat.val (((v.born - 1956) * (v.born - 1956) : ℤ) : ℚ))
        [("x", 1)] [("x", 1)] [("x", 1)] [] []
      = Except.ok (PyFloat.val 0)
    ∧ find_min_max (fun v => PyFloat.val (((v.born - 1956) * (v.born - 1956) : ℤ) : ℚ))
        [("x", 1)] [("x", 1)] [("x", 1)]
      = (PyFloat.val 3136, PyFloat.val 3136)
    ∧ rankAssert (PyFloat.val 0) (PyFloat.val 3136) (PyFloat.val 3136) = false := by
  refine ⟨by with_unfolding_all rfl, ?_, by decide⟩
  have hform : ∀ w ∈ searchDomain [("x", (1:ℚ))] [("x", 1)] [("x", 1)],
      (fun v => PyFloat.val (((v.born - 1956) * (v.born - 1956) : ℤ) : ℚ)) w
        = PyFloat.val 3136 := by
    intro w hw
    show PyFloat.val (((w.born - 1956) * (w.born - 1956) : ℤ) : ℚ) = PyFloat.val 3136
    rcases searchDomain_born hw with h | h <;> rw [h] <;> decide
  cases hd : (searchDomain [("x", (1:ℚ))] [("x", 1)] [("x", 1)]).map
      (fun v => PyFloat.val (((v.born - 1956) * (v.born - 1956) : ℤ) : ℚ)) with
  | nil =>
    rw [List.map_eq_nil_iff] at hd
    have hfirst : (⟨1900, "M", 0, "Nicaragua", "Nicaragua", PyFloat.val (-1),
        PyFloat.val (-1), 1, 1, 0, 1⟩ : Vars)
        ∈ searchDomain [("x", (1:ℚ))] [("x", 1)] [("x", 1)] := by
      simp only [searchDomain, List.mem_flatMap, List.mem_map]
      exact ⟨1900, by simp, "M", by simp, 0, by simp, "Nicaragua", by simp,
        "Nicaragua", by simp, -1, by simp [SCORE_RANGE], -1, by simp [SCORE_RANGE],
        1, by simp, 1, by simp, 0, by simp, 1, by simp, rfl⟩
    rw [hd] at hfirst
    simp at hfirst
  | cons v vs =>
    have hall : ∀ x ∈ v :: vs, x = PyFloat.val 3136 := by
      intro x hx
      rw [← hd] at hx
      obtain ⟨w, hw, rfl⟩ := List.mem_map.mp hx
      exact hform w hw
    simp only [find_min_max, hd]
    rw [pyMinAux_all_eq vs v hall, pyMaxAux_all_eq vs v hall]

/-- Claim C1 (amended): whenever the variable snapshot `rank_person` builds
for an applicant lies inside the bounds-search domain and the formula is
NaN-free on that domain, the computed score lies within the `find_min_max`
interval and the assertion in `rank_person` passes. -/
theorem C1_assert_holds_on_domain (formula : Vars → PyFloat)
    (pr osr pyr : List (String × ℚ)) (p : Applicant)
    (ms cs : List (Option ℚ)) (vars : Vars)
    (hv : personVars p pr osr pyr ms cs = Except.ok vars)
    (hdom : vars ∈ searchDomain pr osr pyr)
    (hval : allVal ((searchDomain pr osr pyr).map formula)) :
    rank_person p formula pr osr pyr ms cs = Except.ok (formula vars)
    ∧ rankAssert (formula vars) (find_min_max formula pr osr pyr).1
        (find_min_max formula pr osr pyr).2 = true := by
  constructor
  · unfold rank_person
    rw [hv]
  · cases hd : (searchDomain pr osr pyr).map formula with
    | nil =>
      have hmem := List.mem_map_of_mem formula hdom
      rw [hd] at hmem
      simp at hmem
    | cons v vs =>
      have hmem : formula vars ∈ v :: vs := by
        have := List.mem_map_of_mem formula hdom
        rwa [hd] at this
      have hall : allVal (v :: vs) := by rwa [hd] at hval
      obtain ⟨q, hq⟩ := hall (formula vars) hmem
      have hmn := pyMinAux_le vs v hall (formula vars) hmem
      have hmx := pyMaxAux_ge vs v hall (formula vars) hmem
      simp only [find_min_max, hd]
      obtain ⟨qv, rfl⟩ := hall v (by simp)
      simp only [rankAssert, hmn, hmx, Bool.and_self, Bool.or_true]

/-- Witness for C1 (amended): a constant formula and an applicant whose
snapshot is the first point of the search domain. -/
theorem C1_witness :
    rank_person ⟨1900, "M", "Nicaragua", "Nicaragua", "x", "x", "x", "no"⟩
        (fun _ => PyFloat.val 5) [("x", 0)] [("x", 0)] [("x", 0)]
        [some (-1)] [some (-1)]
      = Except.ok (PyFloat.val 5)
    ∧ rankAssert (PyFloat.val 5)
        (find_min_max (fun _ => PyFloat.val 5) [("x", 0)] [("x", 0)] [("x", 0)]).1
        (find_min_max (fun _ => PyFloat.val 5) [("x", 0)] [("x", 0)] [("x", 0)]).2
      = true :=
  C1_assert_holds_on_domain (fun _ => PyFloat.val 5) [("x", 0)] [("x", 0)] [("x", 0)]
    ⟨1900, "M", "Nicaragua", "Nicaragua", "x", "x", "x", "no"⟩
    [some (-1)] [some (-1)]
    ⟨1900, "M", 0, "Nicaragua", "Nicaragua", PyFloat.val (-1), PyFloat.val (-1),
      0, 0, 0, 0⟩
    (by with_unfolding_all rfl)
    (by
      simp only [searchDomain, List.mem_flatMap, List.mem_map]
      exact ⟨1900, by simp, "M", by simp, 0, by simp, "Nicaragua", by simp,
        "Nicaragua", by simp, -1, by simp [SCORE_RANGE], -1, by simp [SCORE_RANGE],
        0, by simp, 0, by simp, 0, by simp, 0, by simp, rfl⟩)
    (fun y hy => by
      obtain ⟨w, _, rfl⟩ := List.mem_map.mp hy
      exact ⟨5, rfl⟩)

/-- Claim C9 counterexample: with an empty programming table the outer
product is empty and `find_min_max` returns the pair `(nan, nan)`, not the
`(+inf, -inf)` sentinel pair the claim states. -/
theorem C9_counterexample :
    find_min_max (fun _ => PyFloat.val 0) [] [("x", 1)] [("x", 1)]
      = (PyFloat.nan, PyFloat.nan)
    ∧ (PyFloat.nan, PyFloat.nan) ≠ (PyFloat.inf, PyFloat.ninf) := by
  constructor
  · with_unfolding_all rfl
  · decide

/-- Claim C9 (amended): on an empty search domain `find_min_max` returns the
degenerate pair `(nan, nan)`; on a non-empty domain whose values are all
non-NaN it returns exactly the least and greatest attained value. -/
theorem C9_bounds_empty_or_exact (formula : Vars → PyFloat)
    (pr osr pyr : List (String × ℚ)) :
    (searchDomain pr osr pyr = [] →
      find_min_max formula pr osr pyr = (PyFloat.nan, PyFloat.nan))
    ∧ (∀ v vs, (searchDomain pr osr pyr).map formula = v :: vs →
        allVal (v :: vs) →
        (find_min_max formula pr osr pyr).1 ∈ v :: vs
        ∧ (find_min_max formula pr osr pyr).2 ∈ v :: vs
        ∧ ∀ y ∈ v :: vs, (find_min_max formula pr osr pyr).1.le y = true
            ∧ y.le (find_min_max formula pr osr pyr).2 = true) := by
  constructor
  · intro hd
    simp only [find_min_max, hd, List.map_nil]
  · intro v vs hd hall
    simp only [find_min_max, hd]
    exact ⟨pyMinAux_mem vs v, pyMaxAux_mem vs v,
      fun y hy => ⟨pyMinAux_le vs v hall y hy, pyMaxAux_ge vs v hall y hy⟩⟩

/-- Witness for C9 (amended): all three rating tables empty gives the empty
domain and the `(nan, nan)` result. -/
theorem C9_witness :
    find_min_max (fun _ => PyFloat.val 3) [] [] [] = (PyFloat.nan, PyFloat.nan) :=
  (C9_bounds_empty_or_exact (fun _ => PyFloat.val 3) [] [] []).1 (by with_unfolding_all rfl)

/-! ## Group optimizer (create_groups.py) -/

/-- `np.mean` of a rational list (call sites always pass nonempty lists). -/
def qmean (l : List ℚ) : ℚ := l.sum / l.length

/-- `data[gslice(i, K)]`: rows `i*K` to `(i+1)*K` of a column. -/
def gsliceL (i K : ℕ) (l : List ℚ) : List ℚ := (l.drop (i * K)).take K

/-- The per-group means of one feature column (`NGROUPS = NSTUDENTS // GSIZE`
with the column always `NSTUDENTS` entries long and `K = GSIZE`). -/
def groupMeans (col : List ℚ) (K : ℕ) : List ℚ :=
  (List.range (col.length / K)).map fun i => qmean (gsliceL i K col)

/-- `energy_mudeviation` from create_groups.py: `np.std` across groups of the
per-group means of a column.  `std` abstracts numpy's population standard
deviation (the one numerical primitive not modelled); the target mean `mu` is
accepted but never used by the source body. -/
def energy_mudeviation (std : List ℚ → ℚ) (col : List ℚ) (K : ℕ) (mu : ℚ) : ℚ :=
  std (groupMeans col K)

/-- Column `j` of the matrix (`data[:, j]`). -/
def colJ (data : List (List ℚ)) (j : ℕ) : List ℚ := data.map fun row => row.getD j 0

/-- `energy` from create_groups.py: normalize the weights to sum 1
(`weights *= 1. / np.sum(weights)`), compute the per-column targets from the
global `rated` matrix (`targets = np.mean(rated, axis=0)`), and sum the five
weighted `energy_mudeviation` terms for feature columns 0..4. -/
def energy (std : List ℚ → ℚ) (rated : List (List ℚ)) (data : List (List ℚ))
    (K : ℕ) (weights : List ℚ) : ℚ :=
  let w := weights.map fun x => x * (1 / weights.sum)
  w.getD 0 0 * energy_mudeviation std (colJ data 0) K (qmean (colJ rated 0))
    + w.getD 1 0 * energy_mudeviation std (colJ data 1) K (qmean (colJ rated 1))
    + w.getD 2 0 * energy_mudeviation std (colJ data 2) K (qmean (colJ rated 2))
    + w.getD 3 0 * energy_mudeviation std (colJ data 3) K (qmean (colJ rated 3))
    + w.getD 4 0 * energy_mudeviation std (colJ data 4) K (qmean (colJ rated 4))

/-- The energy formula as the specification words it: for each feature
column, that feature's weight normalized to sum 1 times the spread across
groups of the per-group means of that column, summed across features. -/
def energySpec (std : List ℚ → ℚ) (data : List (List ℚ)) (K : ℕ)
    (weights : List ℚ) : ℚ :=
  ((List.range 5).map fun j =>
    weights.getD j 0 / weights.sum * std (groupMeans (colJ data j) K)).sum

theorem getD_map_zero {f : ℚ → ℚ} (hf : f 0 = 0) :
    ∀ (l : List ℚ) (j : ℕ), (l.map f).getD j 0 = f (l.getD j 0) := by
  intro l
  induction l with
  | nil => intro j; simpa using hf.symm
  | cons a t ih =>
    intro j
    cases j with
    | zero => rfl
    | succ n => simpa using ih n

/-- Claim C2: the total balance energy is the sum over the five feature
columns of the normalized weight times the spread across groups of the
per-group means; it does not depend on the global per-column target means
(the `rated` argument) nor on anything about the data beyond those per-group
means (in particular not on within-group variance). -/
theorem C2_energy_characterization (std : List ℚ → ℚ)
    (rated data : List (List ℚ)) (K : ℕ) (weights : List ℚ)
    (hK : K ∣ data.length) :
    energy std rated data K weights = energySpec std data K weights
    ∧ (∀ rated2, energy std rated2 data K weights = energy std rated data K weights)
    ∧ (∀ data2,
        (∀ j < 5, groupMeans (colJ data2 j) K = groupMeans (colJ data j) K) →
        energy std rated data2 K weights = energy std rated data K weights) := by
  refine ⟨?_, fun rated2 => rfl, ?_⟩
  · have hw : ∀ j, (weights.map fun x => x * (1 / weights.sum)).getD j 0
        = weights.getD j 0 / weights.sum := by
      intro j
      rw [getD_map_zero (by ring), mul_one_div]
    simp only [energy, energySpec, energy_mudeviation,
      List.range_succ, List.range_zero, List.map_append, List.map_cons,
      List.map_nil, List.sum_append, List.sum_cons, List.sum_nil, hw]
    ring
  · intro data2 h
    simp only [energy, energy_mudeviation,
      h 0 (by norm_num), h 1 (by norm_num), h 2 (by norm_num),
      h 3 (by norm_num), h 4 (by norm_num)]

/-- Witness for C2 at a concrete 2×6 matrix with `K = 1` and `std` taken to
be the list sum. -/
theorem C2_witness :
    energy List.sum [] [[1, 1, 1, 1, 1, 7], [2, 2, 2, 2, 2, 8]] 1 [1, 1, 1, 1, 1]
      = energySpec List.sum [[1, 1, 1, 1, 1, 7], [2, 2, 2, 2, 2, 8]] 1 [1, 1, 1, 1, 1] :=
  (C2_energy_characterization List.sum [] [[1, 1, 1, 1, 1, 7], [2, 2, 2, 2, 2, 8]]
    1 [1, 1, 1, 1, 1] (by decide)).1

/-- Swap rows `i` and `j` of the matrix (`data[idx] = data[idx[::-1]]`). -/
def swapRows (data : List (List ℚ)) (i j : ℕ) : List (List ℚ) :=
  (data.set i (data.getD j [])).set j (data.getD i [])

/-- `optimize` from create_groups.py.  The numpy random stream is explicit:
each element carries the proposed index pair (`np.random.randint`) and the
uniform draw the acceptance test may consume (`np.random.rand`).  A pair in
the same block is skipped, modelling the resampling `while` loop; an
out-of-range pair is skipped too (`randint(0, NSTUDENTS)` never produces one,
so that branch is dead at every call site).  Otherwise the rows are swapped
and the swap is undone when `E1 < E2 or (p > 0 and p > rand)`. -/
def optimize (data : List (List ℚ)) (K : ℕ)
    (stream : List ((ℕ × ℕ) × ℚ))
    (energyF : List (List ℚ) → ℕ → List ℚ → ℚ)
    (weights : List ℚ) (p : ℚ) : List (List ℚ) :=
  match stream with
  | [] => data
  | ((i, j), r) :: rest =>
    if i / K = j / K ∨ ¬ (i < data.length ∧ j < data.length) then
      optimize data K rest energyF weights p
    else
      if energyF data K weights < energyF (swapRows data i j) K weights
          ∨ (0 < p ∧ r < p) then
        optimize (swapRows (swapRows data i j) i j) K rest energyF weights p
      else
        optimize (swapRows data i j) K rest energyF weights p

/-! ### Row-swap lemmas -/

theorem cons_set_perm {α : Type} (d : α) :
    ∀ (t : List α) (a : α) (j : ℕ), j < t.length →
    List.Perm (t.getD j d :: t.set j a) (a :: t) := by
  intro t
  induction t with
  | nil => intro a j h; simp at h
  | cons b u ih =>
    intro a j h
    cases j with
    | zero => exact List.Perm.swap a b u
    | succ s =>
      show List.Perm (u.getD s d :: b :: u.set s a) (a :: b :: u)
      have hs : s < u.length := by simpa using h
      exact ((List.Perm.swap b (u.getD s d) (u.set s a)).trans
        (List.Perm.cons b (ih a s hs))).trans (List.Perm.swap a b u)

theorem getD_set_self {α : Type} (d : α) :
    ∀ (l : List α) (i : ℕ) (a : α), i < l.length → (l.set i a).getD i d = a := by
  intro l
  induction l with
  | nil => intro i a h; simp at h
  | cons b u ih =>
    intro i a h
    cases i with
    | zero => rfl
    | succ s => exact ih s a (by simpa using h)

theorem getD_set_ne {α : Type} (d : α) :
    ∀ (l : List α) (i j : ℕ) (a : α), i ≠ j → (l.set i a).getD j d = l.getD j d := by
  intro l
  induction l with
  | nil => intro i j a _; simp
  | cons b u ih =>
    intro i j a hij
    cases i with
    | zero =>
      cases j with
      | zero => exact absurd rfl hij
      | succ t => rfl
    | succ s =>
      cases j with
      | zero => rfl
      | succ t => exact ih s t a (fun h => hij (by rw [h]))

theorem set_getD_self {α : Type} (d : α) :
    ∀ (l : List α) (i : ℕ), i < l.length → l.set i (l.getD i d) = l := by
  intro l
  induction l with
  | nil => intro i h; simp at h
  | cons b u ih =>
    intro i h
    cases i with
    | zero => rfl
    | succ s =>
      show b :: u.set s (u.getD s d) = b :: u
      rw [ih s (by simpa using h)]

theorem swap_set_perm {α : Type} (d : α) :
    ∀ (l : List α) (i j : ℕ), i < l.length → j < l.length → i ≠ j →
    List.Perm ((l.set i (l.getD j d)).set j (l.getD i d)) l := by
  intro l
  induction l with
  | nil => intro i j hi _ _; simp at hi
  | cons b u ih =>
    intro i j hi hj hij
    cases i with
    | zero =>
      cases j with
      | zero => exact absurd rfl hij
      | succ s =>
        show List.Perm (u.getD s d :: u.set s b) (b :: u)
        exact cons_set_perm d u b s (by simpa using hj)
    | succ t =>
      cases j with
      | zero =>
        show List.Perm (u.getD t d :: u.set t b) (b :: u)
        exact cons_set_perm d u b t (by simpa using hi)
      | succ s =>
        show List.Perm (b :: (u.set t (u.getD s d)).set s (u.getD t d)) (b :: u)
        exact List.Perm.cons b
          (ih t s (by simpa using hi) (by simpa using hj)
            (fun h => hij (by rw [h])))

theorem swapRows_perm {data : List (List ℚ)} {i j : ℕ}
    (hi : i < data.length) (hj : j < data.length) (hij : i ≠ j) :
    List.Perm (swapRows data i j) data :=
  swap_set_perm [] data i j hi hj hij

theorem swapRows_swapRows {data : List (List ℚ)} {i j : ℕ}
    (hi : i < data.length) (hj : j < data.length) (hij : i ≠ j) :
    swapRows (swapRows data i j) i j = data := by
  have hji : j ≠ i := fun h => hij h.symm
  have hgj : (swapRows data i j).getD j [] = data.getD i [] := by
    unfold swapRows
    exact getD_set_self [] _ j _ (by simpa using hj)
  have hgi : (swapRows data i j).getD i [] = data.getD j [] := by
    unfold swapRows
    rw [getD_set_ne [] _ j i _ hji]
    exact getD_set_self [] _ i _ (by simpa using hi)
  show ((swapRows data i j).set i ((swapRows data i j).getD j [])).set j
      ((swapRows data i j).getD i []) = data
  rw [hgj, hgi]
  show (((data.set i (data.getD j [])).set j (data.getD i [])).set i
      (data.getD i [])).set j (data.getD j []) = data
  rw [List.set_comm (data.getD i []) (data.getD i [])
      (data.set i (data.getD j [])) hji,
    List.set_set, List.set_set, set_getD_self [] data i hi,
    set_getD_self [] data j hj]

/-- Claim C6: with acceptance probability `p = 0` (the source default) the
energy of the partition after any number of proposal steps of `optimize` is
never greater than the energy it started with: a swap is kept only when it
does not increase the energy, and a rejected swap is undone exactly. -/
theorem C6_energy_never_increases (data : List (List ℚ)) (K : ℕ)
    (stream : List ((ℕ × ℕ) × ℚ))
    (energyF : List (List ℚ) → ℕ → List ℚ → ℚ) (weights : List ℚ) :
    energyF (optimize data K stream energyF weights 0) K weights
      ≤ energyF data K weights := by
  induction stream generalizing data with
  | nil => exact le_refl _
  | cons head rest ih =>
    obtain ⟨⟨i, j⟩, r⟩ := head
    simp only [optimize]
    by_cases hskip : i / K = j / K ∨ ¬ (i < data.length ∧ j < data.length)
    · rw [if_pos hskip]
      exact ih data
    · rw [if_neg hskip]
      push_neg at hskip
      obtain ⟨hblk, hi, hj⟩ := hskip
      have hij : i ≠ j := fun h => hblk (by rw [h])
      by_cases hacc : energyF data K weights
          < energyF (swapRows data i j) K weights ∨ (0 < (0:ℚ) ∧ r < 0)
      · rw [if_pos hacc, swapRows_swapRows hi hj hij]
        exact ih data
      · rw [if_neg hacc]
        push_neg at hacc
        exact (ih (swapRows data i j)).trans (hacc.1)

/-- Claim C10: every proposal step of `optimize` either leaves the matrix
unchanged or exchanges two whole rows in place, so for every input matrix,
group size, random stream, energy function, and acceptance probability, the
matrix `optimize` returns is a row-permutation of the matrix it was given:
no row is lost, duplicated, or altered. -/
theorem C10_optimize_is_row_permutation (data : List (List ℚ)) (K : ℕ)
    (stream : List ((ℕ × ℕ) × ℚ))
    (energyF : List (List ℚ) → ℕ → List ℚ → ℚ) (weights : List ℚ) (p : ℚ) :
    List.Perm (optimize data K stream energyF weights p) data := by
  induction stream generalizing data with
  | nil => exact List.Perm.refl data
  | cons head rest ih =>
    obtain ⟨⟨i, j⟩, r⟩ := head
    simp only [optimize]
    by_cases hskip : i / K = j / K ∨ ¬ (i < data.length ∧ j < data.length)
    · rw [if_pos hskip]
      exact ih data
    · rw [if_neg hskip]
      push_neg at hskip
      obtain ⟨hblk, hi, hj⟩ := hskip
      have hij : i ≠ j := fun h => hblk (by rw [h])
      by_cases hacc : energyF data K weights
          < energyF (swapRows data i j) K weights ∨ (0 < p ∧ r < p)
      · rw [if_pos hacc, swapRows_swapRows hi hj hij]
        exact ih data
      · rw [if_neg hacc]
        exact (ih (swapRows data i j)).trans (swapRows_perm hi hj hij)

/-! ## Trial driver and seeding (`main` of create_groups.py) -/

/-- Modulus of numpy uint64 arithmetic. -/
def UINT64_MOD : ℕ := 2 ^ 64

/-- The top-level seed: the eight 64-bit words of the SHA-512 digest of the
configured seed string (the digest words are an input here — the hash itself
is a primitive), summed with uint64 wraparound, floor-divided by the trial
count (`np.fromstring(sha512(...).digest(), dtype=np.uint64).sum() //
np.uint64(TRIALS)`). -/
def topSeed (digestWords : List ℕ) (trials : ℕ) : ℕ :=
  (digestWords.sum % UINT64_MOD) / trials

/-- The per-trial seed `np.random.seed(seed * random_seed)` for trial index
`seed = 1 .. TRIALS`, in uint64 arithmetic. -/
def trialSeed (top : ℕ) (t : ℕ) : ℕ := (t * top) % UINT64_MOD

/-- Everything one trial draws from the seeded numpy generator: the shuffle
(`np.random.permutation`) as an index list, and the proposal stream consumed
by `optimize`. -/
structure RandTape where
  shuffle : List ℕ
  proposals : List ((ℕ × ℕ) × ℚ)

/-- Apply a shuffle: row `i` of the permuted matrix is row `shuffle[i]` of
the input. -/
def applyShuffle (idxs : List ℕ) (rated : List (List ℚ)) : List (List ℚ) :=
  idxs.map fun i => rated.getD i []

/-- One trial of `main`: reseed with the trial seed, shuffle `rated`, record
the initial energy, optimize, record the final energy. -/
def runTrial (std : List ℚ → ℚ) (prng : ℕ → RandTape) (top : ℕ)
    (rated : List (List ℚ)) (K : ℕ) (weights : List ℚ) (t : ℕ) :
    ℚ × List (List ℚ) × ℚ :=
  let tape := prng (trialSeed top t)
  let data0 := applyShuffle tape.shuffle rated
  let d1 := optimize data0 K tape.proposals (energy std rated) weights 0
  (energy std rated data0 K weights, d1, energy std rated d1 K weights)

/-- The trial with the lowest final energy (`np.argsort(E_seeds)` then index
`pos[0]`; the earliest trial wins ties). -/
def pickBest : List (ℚ × List (List ℚ) × ℚ) → List (List ℚ) × ℚ
  | [] => ([], 0)
  | [x] => (x.2.1, x.2.2)
  | x :: y :: rest =>
    let b := pickBest (y :: rest)
    if b.2 < x.2.2 then b else (x.2.1, x.2.2)

/-- `main` of create_groups.py: derive the top seed, run the trials with
their derived seeds, and return the best partition and energy together with
the initial- and final-energy lists of all trials. -/
def main_groups (std : List ℚ → ℚ) (prng : ℕ → RandTape)
    (digestWords : List ℕ) (trials : ℕ) (rated : List (List ℚ)) (K : ℕ) :
    (List (List ℚ) × ℚ) × List ℚ × List ℚ :=
  let results := (List.range trials).map fun i =>
    runTrial std prng (topSeed digestWords trials) rated K [1, 1, 1, 1, 1] (i + 1)
  (pickBest results, results.map fun r => r.1, results.map fun r => r.2.2)

/-- Claim C7: the whole search is a deterministic function of its inputs and
the random tapes at the derived trial seeds — two runs whose oracles agree on
the seeds `trialSeed top t` for `t = 1 .. trials` return identical best
partitions, best energies, and energy diagnostics; and each trial's seed is
the stated deterministic function `(t * top) mod 2^64` of the top seed and
the trial index. -/
theorem C7_determinism (std : List ℚ → ℚ) (prng1 prng2 : ℕ → RandTape)
    (digestWords : List ℕ) (trials : ℕ) (rated : List (List ℚ)) (K : ℕ)
    (h : ∀ t, 1 ≤ t → t ≤ trials →
      prng1 (trialSeed (topSeed digestWords trials) t)
        = prng2 (trialSeed (topSeed digestWords trials) t)) :
    main_groups std prng1 digestWords trials rated K
      = main_groups std prng2 digestWords trials rated K
    ∧ ∀ t, trialSeed (topSeed digestWords trials) t
        = t * topSeed digestWords trials % 2 ^ 64 := by
  refine ⟨?_, fun t => rfl⟩
  have hres : ((List.range trials).map fun i =>
      runTrial std prng1 (topSeed digestWords trials) rated K [1, 1, 1, 1, 1] (i + 1))
      = (List.range trials).map fun i =>
      runTrial std prng2 (topSeed digestWords trials) rated K [1, 1, 1, 1, 1] (i + 1) := by
    refine List.map_congr_left fun i hi => ?_
    have hit : i < trials := List.mem_range.mp hi
    have htape := h (i + 1) (Nat.le_add_left 1 i) hit
    unfold runTrial
    rw [htape]
  unfold main_groups
  rw [hres]

/-- Witness for C7: a single trial with the two oracles literally equal. -/
theorem C7_witness :
    main_groups List.sum (fun _ => ⟨[0], []⟩) [12345] 1 [[1, 1, 1, 1, 1, 0]] 1
      = main_groups List.sum (fun _ => ⟨[0], []⟩) [12345] 1 [[1, 1, 1, 1, 1, 0]] 1 :=
  (C7_determinism List.sum (fun _ => ⟨[0], []⟩) (fun _ => ⟨[0], []⟩)
    [12345] 1 [[1, 1, 1, 1, 1, 0]] 1 (fun t _ _ => rfl)).1

/-! ## `eval_formula` and the variables mapping (C5) -/

/-- Python values that can sit in the variables dict: numbers, strings, or
the interpreter's builtins module object. -/
inductive PyVal where
  | num : PyFloat → PyVal
  | str : String → PyVal
  | builtinsModule : PyVal
deriving DecidableEq

/-- The two exception classes `eval_formula` catches. -/
inductive EvalErr where
  | nameError : EvalErr
  | typeError : EvalErr
deriving DecidableEq

/-- Python `dict.pop(key, None)`: remove the binding of `key` if present. -/
def eraseKey (m : List (String × PyVal)) (k : String) : List (String × PyVal) :=
  match m with
  | [] => []
  | (k1, v) :: rest => if k1 = k then rest else (k1, v) :: eraseKey rest k

/-- `eval_formula` from grader.py.  CPython's `eval(formula, vars, {})` first
inserts a `__builtins__` binding into the globals dict `vars` when that key
is absent; the formula is a pure expression evaluated against the resulting
dict (its evaluation function is the parameter `f`, matching the contract
that the formula itself is side-effect-free).  On a NameError or TypeError
the except-branch pops `__builtins__` back out
(`vars.pop('__builtins__', None)`) before raising ValueError; on success the
dict keeps the inserted binding.  The returned pair is (result, final state
of the caller's mapping). -/
def eval_formula (f : List (String × PyVal) → Except EvalErr PyVal)
    (vars : List (String × PyVal)) :
    Except EvalErr PyVal × List (String × PyVal) :=
  let vars1 := if alookup vars "__builtins__" = none
    then vars ++ [("__builtins__", PyVal.builtinsModule)] else vars
  match f vars1 with
  | .ok v => (.ok v, vars1)
  | .error e => (.error e, eraseKey vars1 "__builtins__")

theorem eraseKey_append_singleton {m : List (String × PyVal)} {k : String}
    (h : alookup m k = none) (v : PyVal) :
    eraseKey (m ++ [(k, v)]) k = m := by
  induction m with
  | nil => simp [eraseKey]
  | cons kv rest ih =>
    obtain ⟨k1, v1⟩ := kv
    by_cases hk : k1 = k
    · rw [show alookup ((k1, v1) :: rest) k = some v1 from by
        simp [alookup, hk]] at h
      exact absurd h (by simp)
    · have hrest : alookup rest k = none := by
        simpa [alookup, hk] using h
      simp [eraseKey, hk, ih hrest]

/-- Claim C5 counterexample: a successful evaluation leaves the inserted
`__builtins__` binding inside the caller's mapping, so the mapping passed in
is not unchanged. -/
theorem C5_counterexample :
    (eval_formula (fun _ => Except.ok (PyVal.num (PyFloat.val 7)))
        [("x", PyVal.num (PyFloat.val 1))]).2
      ≠ [("x", PyVal.num (PyFloat.val 1))] := by
  decide

/-- Claim C5 (amended): for a pure formula and a mapping without a
`__builtins__` key, a failing evaluation hands the mapping back exactly as it
was, while a successful one hands it back with exactly one extra binding —
the interpreter's `__builtins__` — appended; in both cases every binding the
caller put in is preserved. -/
theorem C5_mapping_preserved
    (f : List (String × PyVal) → Except EvalErr PyVal)
    (vars : List (String × PyVal))
    (hb : alookup vars "__builtins__" = none) :
    (∀ e, (eval_formula f vars).1 = Except.error e →
      (eval_formula f vars).2 = vars)
    ∧ (∀ v, (eval_formula f vars).1 = Except.ok v →
      (eval_formula f vars).2 = vars ++ [("__builtins__", PyVal.builtinsModule)]) := by
  have hv1 : (if alookup vars "__builtins__" = none
      then vars ++ [("__builtins__", PyVal.builtinsModule)] else vars)
      = vars ++ [("__builtins__", PyVal.builtinsModule)] := if_pos hb
  constructor
  · intro e he
    simp only [eval_formula, hv1] at he ⊢
    cases hf : f (vars ++ [("__builtins__", PyVal.builtinsModule)]) with
    | ok v => rw [hf] at he; exact absurd he (by simp)
    | error e2 => exact eraseKey_append_singleton hb PyVal.builtinsModule
  · intro v hv
    simp only [eval_formula, hv1] at hv ⊢
    cases hf : f (vars ++ [("__builtins__", PyVal.builtinsModule)]) with
    | ok v2 => rfl
    | error e2 => rw [hf] at hv; exact absurd hv (by simp)

/-- Witness for C5 (amended): the failing branch restores the concrete
mapping exactly. -/
theorem C5_witness :
    (eval_formula (fun _ => Except.error EvalErr.nameError)
        [("y", PyVal.num (PyFloat.val 3))]).2
      = [("y", PyVal.num (PyFloat.val 3))] :=
  (C5_mapping_preserved (fun _ => Except.error EvalErr.nameError)
    [("y", PyVal.num (PyFloat.val 3))] (by decide)).1
    EvalErr.nameError (by rfl)

end Grader
